import Mathlib

/-!
Verification of the rake-spacy keyword-extraction core.

The development shallowly embeds the scoring/ranking engine of the
repository: tokens and spans (the interface of the external annotation
pipeline), the co-occurrence graph built over nested default-dicts with a
key-proxying wrapper (`cog.py`), the stop-token indicator
(`stop_tokens.py`), token mappers (`mappers.py`), the contiguous-run
phraser (`phrasers.py`), the word scorers (`scorers.py`), the aggregators
(`aggregators.py`), and the orchestration of the two engine iterations
(`rake.py` and `rake2.py`).

Numeric scores are modelled over `ℚ` (Python floats treated as exact
reals; every score the engine computes is a ratio of integers).  The
Euclidean norm used by `PenalizedNormAggregator` is modelled over `ℝ`.

Python dicts are modelled as association lists preserving insertion
order.  A `defaultdict` lookup of a missing key INSERTS the default value
(this is observable: the key set grows), so graph reads are modelled as
state-passing functions returning the value together with the possibly
grown dict.
-/

/-- A token of the external annotation pipeline: raw text, lemma form,
linguistic flags, 0-based position in the document, and the document's
total token count. -/
structure Token where
  text : String
  lemma_ : String
  is_stop : Bool
  is_space : Bool
  is_punct : Bool
  like_num : Bool
  i : Nat
  docLen : Nat
deriving DecidableEq, Repr

/-- A span of the document: start and one-past-the-end token indices,
mirroring `doc[a : b]`. -/
structure Span where
  start : Nat
  stop : Nat
deriving DecidableEq, Repr

/-- Tokens of a span, sliced out of the document: `doc[a : b]`. -/
def spanTokens (doc : List Token) (s : Span) : List Token :=
  (doc.drop s.start).take (s.stop - s.start)

/-- Rendered text of a span (model of spaCy's `Span.text`): the tokens'
texts joined by single spaces. -/
def spanText (doc : List Token) (s : Span) : String :=
  String.intercalate " " ((spanTokens doc s).map Token.text)

/-- Lexicographic comparison of char lists by code point, the order
Python uses to compare strings. -/
def strLeChars : List Char → List Char → Bool
  | [], _ => true
  | _ :: _, [] => false
  | a :: as, b :: bs =>
    if a.toNat < b.toNat then true
    else if b.toNat < a.toNat then false
    else strLeChars as bs

/-- String comparison used for the ranklist tie-break (`t[1].text`). -/
def strLe (a b : String) : Prop := strLeChars a.data b.data = true

instance (a b : String) : Decidable (strLe a b) := by
  unfold strLe
  infer_instance

/-- A document is well formed when every token's `i` field is its actual
position, as the external pipeline guarantees. -/
def WFDoc (doc : List Token) : Prop :=
  ∀ k (h : k < doc.length), (doc.get ⟨k, h⟩).i = k

instance (doc : List Token) : Decidable (WFDoc doc) :=
  Nat.decidableBallLT _ _

/-- `stop_tokens.BasicStopTokenIndicator`: stop, whitespace or
punctuation, unless numeric-like. -/
def BasicStopTokenIndicator (t : Token) : Bool :=
  (t.is_stop || t.is_space || t.is_punct) && !t.like_num

/-- `mappers.LemmaMapper` on tokens.  On strings all source mappers are
the identity (the `isinstance(token, str)` guard), which is why canonical
keys are modelled as plain strings below. -/
def LemmaMapper (t : Token) : String := t.lemma_

/-- `mappers.TextMapper` on tokens. -/
def TextMapper (t : Token) : String := t.text

/-- `mappers.LemmaLowerMapper` on tokens. -/
def LemmaLowerMapper (t : Token) : String := t.lemma_.toLower

/-! ### Dicts as insertion-ordered association lists -/

/-- Dict lookup: first binding of the key, if any. -/
def alook {α : Type} (k : String) : List (String × α) → Option α
  | [] => none
  | p :: rest => if p.1 = k then some p.2 else alook k rest

/-- Dict store: overwrite in place when the key is present (keeping its
position, as Python dicts do), otherwise append at the end. -/
def aset {α : Type} (k : String) (v : α) : List (String × α) → List (String × α)
  | [] => [(k, v)]
  | p :: rest => if p.1 = k then (k, v) :: rest else p :: aset k v rest

/-- Inner dict of the co-occurrence graph: canonical key → weight. -/
abbrev Row := List (String × Nat)

/-- The co-occurrence graph: canonical key → Row.  Models the nested
`ProxiedDefaultDict` of `cog.co_occurange_graph_factory` (and the plain
nested `defaultdict` of `rake.py`, which is identical once the proxy has
canonicalized the key). -/
abbrev Cog := List (String × Row)

/-- `defaultdict.__getitem__` on the outer graph: return the stored row,
or INSERT and return an empty row when the key is missing. -/
def rowGet (g : Cog) (k : String) : Row × Cog :=
  match alook k g with
  | some r => (r, g)
  | none => ([], aset k ([] : Row) g)

/-- `defaultdict.__getitem__` on an inner row: return the stored weight,
or INSERT and return `0` when the key is missing. -/
def cellGet (r : Row) (k : String) : Nat × Row :=
  match alook k r with
  | some v => (v, r)
  | none => (0, aset k 0 r)

/-- `cograph[w][c] += 1`: outer get (inserting an empty row if needed),
inner get (inserting 0 if needed), then store the bumped value.  The
inner dict is aliased inside the outer one, so the updated row is written
back at `w`. -/
def cogIncr (g : Cog) (w c : String) : Cog :=
  let rg := rowGet g w
  let cg := cellGet rg.1 c
  aset w (aset c (cg.1 + 1) cg.2) rg.2

/-- Abstract weight of an edge: stored value, absent entries reading 0.
This is what every pure observation of the graph factors through. -/
def lookupW (g : Cog) (a b : String) : Nat :=
  (alook b ((alook a g).getD [])).getD 0

/-- Sum of the stored values of a row: `sum(cograph[w].values())`, the
degree of `w` (0 for an absent row). -/
def rowSumv (g : Cog) (a : String) : Nat :=
  (((alook a g).getD []).map Prod.snd).sum

/-- `itertools.product(phrase, phrase)` in iteration order. -/
def prodPairs (l₁ l₂ : List Token) : List (Token × Token) :=
  (l₁.map fun a => l₂.map fun b => (a, b)).flatten

/-- `Rake.generate_word_co_occurance_graph` (identical in `rake.py` and
`rake2.py`): for each phrase, for each ordered pair of its tokens,
increment `graph[canon(word)][canon(coword)]` unless either end is a stop
token. -/
def generate_word_co_occurance_graph (stop : Token → Bool) (canon : Token → String)
    (phrases : List (List Token)) : Cog :=
  phrases.foldl
    (fun g p =>
      (prodPairs p p).foldl
        (fun g2 wc =>
          if !(stop wc.1 || stop wc.2) then cogIncr g2 (canon wc.1) (canon wc.2) else g2)
        g)
    []

/-- `Rake.generate_frequency_dist` as a value function: the count of the
key among the canonicalized non-stop tokens of all phrases
(`collections.Counter` returns 0 for missing keys without inserting). -/
def generate_frequency_dist (stop : Token → Bool) (canon : Token → String)
    (phrases : List (List Token)) (k : String) : Nat :=
  ((phrases.flatten.filter fun t => !stop t).map canon).count k

/-! ### Phrasers -/

/-- Span for one group `g` of `itertools.groupby`:
`doc[g[0].i : g[-1].i + 1]` (groups are never empty; the `getD` defaults
are unreachable). -/
def spanOf (g : List Token) : Span :=
  ⟨((g.head?).map Token.i).getD 0, (((g.getLast?).map Token.i).getD 0) + 1⟩

/-- Maximal runs of tokens satisfying `keep`, in document order: the
groups of `itertools.groupby(doc, key)` whose key is true. -/
def runsBy (keep : Token → Bool) : List Token → List (List Token)
  | [] => []
  | t :: ts =>
    if keep t then (t :: ts.takeWhile keep) :: runsBy keep (ts.dropWhile keep)
    else runsBy keep ts
termination_by l => l.length
decreasing_by
  · simp only [List.length_cons]
    have h : ∀ (l : List Token), (l.dropWhile keep).length ≤ l.length := by
      intro l
      induction l with
      | nil => simp [List.dropWhile]
      | cons a l ih =>
        rw [List.dropWhile]
        cases keep a
        · simp
        · simpa using le_trans ih (Nat.le_succ _)
    exact Nat.lt_succ_of_le (h ts)
  · simp

/-- `phrasers.ContiguousNonStopTokenPhraser.__call__` (identical to
`rake.Rake.contiguous_non_stop_phrases`): one span per maximal run of
non-stop tokens. -/
def ContiguousNonStopTokenPhraser (stop_token_indicator_fn : Token → Bool)
    (doc : List Token) : List Span :=
  (runsBy (fun t => !stop_token_indicator_fn t) doc).map spanOf

/-- Whether the token at position `k` satisfies `keep` (false when `k` is
out of range).  Used to state maximality of runs. -/
def keepAt (keep : Token → Bool) (doc : List Token) (k : Nat) : Bool :=
  match doc[k]? with
  | some t => keep t
  | none => false

/-- Specification predicate: `[s, e)` is a maximal run of consecutive
tokens satisfying `keep`. -/
def IsMaximalRun (keep : Token → Bool) (doc : List Token) (s e : Nat) : Prop :=
  s < e ∧ e ≤ doc.length ∧
    (∀ k, s ≤ k → k < e → keepAt keep doc k = true) ∧
    (s = 0 ∨ keepAt keep doc (s - 1) = false) ∧
    keepAt keep doc e = false

/-! ### Word scorers (`scorers.py`)

Each scorer receives the graph, whose key proxy is the engine's token
mapper `canon`; reading `cog[token]` canonicalizes the token and may
insert a default entry, so scorers return the value together with the
possibly grown graph. -/

/-- `scorers.DegreeScorer`: `float(sum(cog[token].values()))`. -/
def DegreeScorer (canon : Token → String) (g : Cog) (t : Token) : ℚ × Cog :=
  let rg := rowGet g (canon t)
  (((rg.1.map Prod.snd).sum : ℚ), rg.2)

/-- `scorers.FrequencyScorer`: `float(cog[token][token])`. -/
def FrequencyScorer (canon : Token → String) (g : Cog) (t : Token) : ℚ × Cog :=
  let k := canon t
  let rg := rowGet g k
  let cg := cellGet rg.1 k
  ((cg.1 : ℚ), aset k cg.2 rg.2)

/-- `scorers.DegreeToFrequencyScorer`: `freq = cog[token][token]`, then
`deg = sum(cog[token].values())`, returning `0 if freq == 0 else
deg / freq`. -/
def DegreeToFrequencyScorer (canon : Token → String) (g : Cog) (t : Token) : ℚ × Cog :=
  let k := canon t
  let rg := rowGet g k
  let cg := cellGet rg.1 k
  let g2 := aset k cg.2 rg.2
  let rg2 := rowGet g2 k
  (if cg.1 = 0 then 0 else ((rg2.1.map Prod.snd).sum : ℚ) / (cg.1 : ℚ), rg2.2)

/-- `scorers.LocationPenalizedFrequencyScorer`:
`freq * (len(doc) - token.i) / len(doc)`. -/
def LocationPenalizedFrequencyScorer (canon : Token → String) (g : Cog) (t : Token) : ℚ × Cog :=
  let k := canon t
  let rg := rowGet g k
  let cg := cellGet rg.1 k
  ((cg.1 : ℚ) * (((t.docLen : ℚ) - (t.i : ℚ)) / (t.docLen : ℚ)), aset k cg.2 rg.2)

/-! ### Aggregators (`aggregators.py`) -/

/-- `aggregators.SumAggregator`. -/
def SumAggregator (scores : List ℚ) : ℚ := scores.sum

/-- `np.linalg.norm(scores)`: the Euclidean norm. -/
noncomputable def normEuclid (scores : List ℚ) : ℝ :=
  Real.sqrt ((scores.map fun s => ((s : ℝ)) ^ 2).sum)

/-- `aggregators.PenalizedNormAggregator`: norm over a length penalty
that counts the non-zero scores, forced to 1 when between 1 and the
threshold (`max_len_before_penalization`) inclusive; 0 when the divisor
is 0. -/
noncomputable def PenalizedNormAggregator (threshold : Nat) (scores : List ℚ) : ℝ :=
  let N := normEuclid scores
  let D := (scores.filter fun s => decide (s ≠ 0)).length
  let D2 := if 1 ≤ D ∧ D ≤ threshold then 1 else D
  if D2 ≠ 0 then N / (D2 : ℝ) else 0

/-! ### Ranking engine -/

/-- Score the tokens of one phrase in order, threading the graph state
through the scorer calls (`[scorer(cograph, t) for t in p]`). -/
def scoreTokens (scorer : Cog → Token → ℚ × Cog) : Cog → List Token → List ℚ × Cog
  | g, [] => ([], g)
  | g, t :: ts =>
    let vg := scorer g t
    let rest := scoreTokens scorer vg.2 ts
    (vg.1 :: rest.1, rest.2)

/-- Score every phrase in order, threading the graph state
(`[([scorer(cograph, t) for t in p], p) for p in phrases]`). -/
def scorePhrases (scorer : Cog → Token → ℚ × Cog) (doc : List Token) :
    Cog → List Span → List (List ℚ × Span) × Cog
  | g, [] => ([], g)
  | g, p :: ps =>
    let sg := scoreTokens scorer g (spanTokens doc p)
    let rest := scorePhrases scorer doc sg.2 ps
    ((sg.1, p) :: rest.1, rest.2)

/-- The sort key relation of `sorted(rank_list, key=lambda t: (-t[0],
t[1].text))`: ascending in `-score`, ties broken by the rendered text. -/
def rankKeyLe (doc : List Token) (x y : ℚ × Span) : Prop :=
  y.1 < x.1 ∨ (x.1 = y.1 ∧ strLe (spanText doc x.2) (spanText doc y.2))

instance (doc : List Token) : DecidableRel (rankKeyLe doc) := fun x y => by
  unfold rankKeyLe
  infer_instance

/-- `rake2.Rake.generate_ranklist`: aggregate each phrase's word scores
and sort by descending score, ties by rendered text ascending. -/
def generate_ranklist (scorer : Cog → Token → ℚ × Cog) (agg : List ℚ → ℚ)
    (doc : List Token) (g : Cog) (phrases : List Span) : List (ℚ × Span) :=
  List.insertionSort (rankKeyLe doc)
    (((scorePhrases scorer doc g phrases).1).map fun x => (agg x.1, x.2))

/-- The strategy objects injected into `rake2.Rake.__init__`. -/
structure Rake2Cfg where
  min_length : Nat
  max_length : Nat
  stop_token_class : Token → Bool
  phraser_class : List Token → List Span
  token_mapper_class : Token → String
  word_scorer_class : Cog → Token → ℚ × Cog
  aggregator_class : List ℚ → ℚ

/-- Candidate phrases surviving the inclusive length filter
(`min_length <= len(p) <= max_length`). -/
def filteredPhrases (cfg : Rake2Cfg) (doc : List Token) : List Span :=
  (cfg.phraser_class doc).filter fun p =>
    decide (cfg.min_length ≤ (spanTokens doc p).length) &&
      decide ((spanTokens doc p).length ≤ cfg.max_length)

/-- `rake2.Rake.apply_to_doc`: filter phrases, build the graph, rank.
(The frequency distribution and degree are also stored on the object but
do not feed the returned rank list.) -/
def apply_to_doc (cfg : Rake2Cfg) (doc : List Token) : List (ℚ × Span) :=
  let phrases := filteredPhrases cfg doc
  let g := generate_word_co_occurance_graph cfg.stop_token_class cfg.token_mapper_class
    (phrases.map (spanTokens doc))
  generate_ranklist cfg.word_scorer_class cfg.aggregator_class doc g phrases

/-- The error class the specification's taxonomy names for invalid
strategy combinations. -/
inductive ConfigurationError where
  | invalidBounds
deriving DecidableEq, Repr

/-- `rake2.Rake.__init__` with the given bounds and the default strategy
objects.  The source performs NO validation and cannot raise; the
`Except` channel models the claimed failure mode and is always `ok`. -/
def rake2Init (min_length max_length : Nat) : Except ConfigurationError Rake2Cfg :=
  Except.ok ⟨min_length, max_length, BasicStopTokenIndicator,
    ContiguousNonStopTokenPhraser BasicStopTokenIndicator, LemmaMapper,
    FrequencyScorer LemmaMapper, SumAggregator⟩

/-! ### The first engine iteration (`rake.py`), at the documented
original-RAKE configuration: degree-to-frequency metric, contiguous
non-stop phrases, default ignorables, sum aggregation.  `canon` is the
`token_key` attribute lookup. -/

/-- `rake.Rake.word_score` under the degree-to-frequency metric:
`degree[word] / frequency_dist[word]` when the frequency is positive,
else 0.  `degree[word]` reads as the row sum of the word in the graph
(0 for absent words), `frequency_dist` is the independent Counter. -/
def rake1WordScore (canon : Token → String) (g : Cog) (fd : String → Nat) (t : Token) : ℚ :=
  let w := canon t
  if 0 < fd w then (rowSumv g w : ℚ) / (fd w : ℚ) else 0

/-- `rake.Rake.extract_keywords_from_text` after annotation, configured
with `phrase_fn=contiguous_non_stop_phrases`, the degree-to-frequency
metric and sum aggregation: generate and filter phrases, build the
frequency distribution, the graph and the degrees, then rank. -/
def rake1Apply (canon : Token → String) (min_length max_length : Nat)
    (doc : List Token) : List (ℚ × Span) :=
  let phrases := (ContiguousNonStopTokenPhraser BasicStopTokenIndicator doc).filter fun p =>
    decide (min_length ≤ (spanTokens doc p).length) &&
      decide ((spanTokens doc p).length ≤ max_length)
  let g := generate_word_co_occurance_graph BasicStopTokenIndicator canon
    (phrases.map (spanTokens doc))
  let fd := generate_frequency_dist BasicStopTokenIndicator canon (phrases.map (spanTokens doc))
  List.insertionSort (rankKeyLe doc)
    (phrases.map fun p => (((spanTokens doc p).map (rake1WordScore canon g fd)).sum, p))

/-! ### Concrete documents for witnesses and counterexamples -/

/-- An ordinary word token. -/
def mkTok (txt : String) (st sp pu nu : Bool) (idx ln : Nat) : Token :=
  ⟨txt, txt, st, sp, pu, nu, idx, ln⟩

/-- The spec's end-to-end example text, as the pipeline annotates it:
"red apples, are good in flavour". -/
def exDoc : List Token :=
  [mkTok "red" false false false false 0 7,
   mkTok "apples" false false false false 1 7,
   mkTok "," false false true false 2 7,
   mkTok "are" true false false false 3 7,
   mkTok "good" false false false false 4 7,
   mkTok "in" true false false false 5 7,
   mkTok "flavour" false false false false 6 7]

/-- A document whose single candidate phrase repeats one word: "big big". -/
def bigDoc : List Token :=
  [mkTok "big" false false false false 0 2,
   mkTok "big" false false false false 1 2]

/-- The documented original-RAKE configuration of the second engine:
raw-text canonicalization, contiguous-run phrasing, degree-to-frequency
scoring, sum aggregation. -/
def origRakeCfg : Rake2Cfg :=
  ⟨1, 100000, BasicStopTokenIndicator,
    ContiguousNonStopTokenPhraser BasicStopTokenIndicator, TextMapper,
    DegreeToFrequencyScorer TextMapper, SumAggregator⟩

/-! ## Lemmas: association-list dictionaries -/

theorem alook_aset {α : Type} (k k' : String) (v : α) (l : List (String × α)) :
    alook k' (aset k v l) = if k = k' then some v else alook k' l := by
  induction l with
  | nil => by_cases h : k = k' <;> simp [alook, aset, h]
  | cons p rest ih =>
    by_cases hp : p.1 = k
    · by_cases h : k = k' <;> simp [alook, aset, hp, h]
    · by_cases h : p.1 = k'
      · have hkk : ¬ k = k' := fun he => hp (he ▸ h)
        have hkk2 : ¬ k' = k := fun he => hkk he.symm
        simp [alook, aset, hp, h, hkk, hkk2]
      · simp [alook, aset, hp, h, ih]

theorem aset_of_alook_none {α : Type} (k : String) (v : α) (l : List (String × α))
    (h : alook k l = none) : aset k v l = l ++ [(k, v)] := by
  induction l with
  | nil => simp [aset]
  | cons p rest ih =>
    by_cases hp : p.1 = k
    · simp [alook, hp] at h
    · simp only [alook, hp, if_neg, ite_false] at h
      simp [aset, hp, ih h]

theorem cellGet_fst (r : Row) (k : String) : (cellGet r k).1 = (alook k r).getD 0 := by
  unfold cellGet
  cases h : alook k r <;> simp [h]

theorem alook_cellGet_snd (r : Row) (k k' : String) :
    alook k' (cellGet r k).2 = if k = k' then some ((alook k r).getD 0) else alook k' r := by
  unfold cellGet
  cases h : alook k r with
  | some v =>
    by_cases hk : k = k'
    · subst hk
      simp [h]
    · simp [h, hk]
  | none =>
    by_cases hk : k = k'
    · subst hk
      simp [h, alook_aset]
    · simp [h, hk, alook_aset]

theorem sum_cellGet_snd (r : Row) (k : String) :
    ((cellGet r k).2.map Prod.snd).sum = (r.map Prod.snd).sum := by
  unfold cellGet
  cases h : alook k r with
  | some v => simp
  | none => simp [aset_of_alook_none k 0 r h]

theorem rowGet_fst (g : Cog) (k : String) : (rowGet g k).1 = (alook k g).getD [] := by
  unfold rowGet
  cases h : alook k g <;> simp [h]

theorem alook_rowGet_snd (g : Cog) (k k' : String) :
    alook k' (rowGet g k).2 = if k = k' then some ((alook k g).getD []) else alook k' g := by
  unfold rowGet
  cases h : alook k g with
  | some r =>
    by_cases hk : k = k'
    · subst hk
      simp [h]
    · simp [h, hk]
  | none =>
    by_cases hk : k = k'
    · subst hk
      simp [h, alook_aset]
    · simp [h, hk, alook_aset]

theorem lookupW_rowGet (g : Cog) (k a b : String) :
    lookupW (rowGet g k).2 a b = lookupW g a b := by
  unfold lookupW
  rw [alook_rowGet_snd]
  by_cases hk : k = a
  · subst hk
    simp
  · simp [hk]

theorem rowSumv_rowGet (g : Cog) (k a : String) :
    rowSumv (rowGet g k).2 a = rowSumv g a := by
  unfold rowSumv
  rw [alook_rowGet_snd]
  by_cases hk : k = a
  · subst hk
    simp
  · simp [hk]

theorem lookupW_cogIncr (g : Cog) (w c a b : String) :
    lookupW (cogIncr g w c) a b = lookupW g a b + if w = a ∧ c = b then 1 else 0 := by
  unfold cogIncr lookupW
  by_cases hwa : w = a
  · subst hwa
    by_cases hcb : c = b
    · subst hcb
      simp [alook_aset, cellGet_fst, rowGet_fst]
    · simp [alook_aset, alook_cellGet_snd, hcb, rowGet_fst]
  · simp [alook_aset, alook_rowGet_snd, hwa]

theorem sum_aset_of_alook (k : String) (v x : Nat) (l : Row) (h : alook k l = some x) :
    ((aset k v l).map Prod.snd).sum + x = (l.map Prod.snd).sum + v := by
  induction l with
  | nil => simp [alook] at h
  | cons p rest ih =>
    by_cases hp : p.1 = k
    · simp only [alook, hp, ite_true, if_pos, Option.some.injEq] at h
      simp only [aset, hp, ite_true, if_pos, List.map_cons, List.sum_cons]
      omega
    · simp only [alook, hp, ite_false, if_neg] at h
      simp only [aset, hp, ite_false, if_neg, List.map_cons, List.sum_cons]
      have := ih h
      omega

theorem sum_aset_incr (r : Row) (c : String) :
    ((aset c ((cellGet r c).1 + 1) (cellGet r c).2).map Prod.snd).sum
      = (r.map Prod.snd).sum + 1 := by
  have hc : alook c (cellGet r c).2 = some ((alook c r).getD 0) := by
    rw [alook_cellGet_snd]
    simp
  have h1 := sum_aset_of_alook c ((cellGet r c).1 + 1) ((alook c r).getD 0) (cellGet r c).2 hc
  have h2 := sum_cellGet_snd r c
  have h3 := cellGet_fst r c
  omega

theorem rowSumv_cogIncr (g : Cog) (w c a : String) :
    rowSumv (cogIncr g w c) a = rowSumv g a + if w = a then 1 else 0 := by
  unfold cogIncr rowSumv
  by_cases hwa : w = a
  · subst hwa
    simp only [alook_aset, ite_true, if_pos, Option.getD_some, rowGet_fst]
    simpa using sum_aset_incr ((alook w g).getD []) c
  · simp [alook_aset, hwa, alook_rowGet_snd]

/-! ## Lemmas: characterizing the built co-occurrence graph -/

theorem lookupW_pairsFold (stop : Token → Bool) (canon : Token → String)
    (pairs : List (Token × Token)) (g : Cog) (a b : String) :
    lookupW (pairs.foldl (fun g2 wc =>
        if !(stop wc.1 || stop wc.2) then cogIncr g2 (canon wc.1) (canon wc.2) else g2) g) a b
      = lookupW g a b + pairs.countP
          (fun wc => !(stop wc.1 || stop wc.2) && (canon wc.1 == a) && (canon wc.2 == b)) := by
  induction pairs generalizing g with
  | nil => simp
  | cons wc rest ih =>
    rw [List.foldl_cons, List.countP_cons, ih]
    cases h : (stop wc.1 || stop wc.2) with
    | true => simp [h]
    | false =>
      simp only [h, Bool.not_false, ite_true, if_pos, lookupW_cogIncr]
      by_cases h1 : canon wc.1 = a
      · by_cases h2 : canon wc.2 = b
        · simp only [h1, h2, beq_self_eq_true, Bool.and_true, Bool.true_and, and_self,
            ite_true, if_pos]
          omega
        · simp [h1, h2]
      · simp [h1]

theorem lookupW_build (stop : Token → Bool) (canon : Token → String)
    (phrases : List (List Token)) (a b : String) :
    lookupW (generate_word_co_occurance_graph stop canon phrases) a b
      = (phrases.map fun p => (prodPairs p p).countP
          (fun wc => !(stop wc.1 || stop wc.2) && (canon wc.1 == a) && (canon wc.2 == b))).sum := by
  have key : ∀ (ps : List (List Token)) (g : Cog),
      lookupW (ps.foldl (fun g p => (prodPairs p p).foldl
          (fun g2 wc =>
            if !(stop wc.1 || stop wc.2) then cogIncr g2 (canon wc.1) (canon wc.2) else g2) g) g) a b
        = lookupW g a b + (ps.map fun p => (prodPairs p p).countP
            (fun wc => !(stop wc.1 || stop wc.2) && (canon wc.1 == a) && (canon wc.2 == b))).sum := by
    intro ps
    induction ps with
    | nil => simp
    | cons p rest ih =>
      intro g
      rw [List.foldl_cons, ih, lookupW_pairsFold, List.map_cons, List.sum_cons]
      omega
  have h0 := key phrases []
  have hnil : lookupW [] a b = 0 := by simp [lookupW, alook]
  rw [generate_word_co_occurance_graph, h0, hnil, Nat.zero_add]

theorem countP_prodPairs (p q : Token → Bool) (l₁ l₂ : List Token) :
    (prodPairs l₁ l₂).countP (fun wc => p wc.1 && q wc.2) = l₁.countP p * l₂.countP q := by
  induction l₁ with
  | nil => simp [prodPairs]
  | cons a l ih =>
    simp only [prodPairs, List.map_cons, List.flatten_cons, List.countP_append, List.countP_cons]
    rw [List.countP_map]
    have hih : (List.countP (fun wc => p wc.1 && q wc.2) (List.map (fun x => List.map (fun b => (x, b)) l₂) l).flatten)
        = l.countP p * l₂.countP q := ih
    rw [hih]
    cases hpa : p a with
    | true =>
      have : List.countP ((fun wc => p wc.1 && q wc.2) ∘ fun b => (a, b)) l₂ = l₂.countP q := by
        apply List.countP_congr
        intro x _
        simp [hpa]
      rw [this]
      simp only [hpa, ite_true, if_pos]
      ring
    | false =>
      have : List.countP ((fun wc => p wc.1 && q wc.2) ∘ fun b => (a, b)) l₂ = 0 := by
        rw [List.countP_eq_zero]
        intro x _
        simp [hpa]
      rw [this]
      simp [hpa]

theorem build_pred_factor (stop : Token → Bool) (canon : Token → String) (a b : String)
    (wc : Token × Token) :
    (!(stop wc.1 || stop wc.2) && (canon wc.1 == a) && (canon wc.2 == b))
      = ((!stop wc.1 && (canon wc.1 == a)) && (!stop wc.2 && (canon wc.2 == b))) := by
  cases h1 : stop wc.1 <;> cases h2 : stop wc.2 <;> simp [h1, h2]

theorem countP_pairs_mul (stop : Token → Bool) (canon : Token → String) (a b : String)
    (p : List Token) :
    (prodPairs p p).countP
        (fun wc => !(stop wc.1 || stop wc.2) && (canon wc.1 == a) && (canon wc.2 == b))
      = (p.countP fun t => !stop t && (canon t == a)) * (p.countP fun t => !stop t && (canon t == b)) := by
  rw [List.countP_congr fun wc _ => by rw [build_pred_factor stop canon a b wc]]
  exact countP_prodPairs (fun t => !stop t && (canon t == a)) (fun t => !stop t && (canon t == b)) p p

/-- C1: for every list of candidate phrases and all canonical keys `a`
and `b`, the built co-occurrence graph is symmetric:
`graph[a][b] == graph[b][a]`. -/
theorem cog_symmetric (stop : Token → Bool) (canon : Token → String)
    (phrases : List (List Token)) (a b : String) :
    lookupW (generate_word_co_occurance_graph stop canon phrases) a b
      = lookupW (generate_word_co_occurance_graph stop canon phrases) b a := by
  rw [lookupW_build, lookupW_build]
  congr 1
  apply List.map_congr_left
  intro p _
  rw [countP_pairs_mul, countP_pairs_mul, Nat.mul_comm]

theorem lookupW_build_diag (stop : Token → Bool) (canon : Token → String)
    (phrases : List (List Token)) (w : String) :
    lookupW (generate_word_co_occurance_graph stop canon phrases) w w
      = (phrases.map fun p => (p.countP fun t => !stop t && (canon t == w)) ^ 2).sum := by
  rw [lookupW_build]
  congr 1
  apply List.map_congr_left
  intro p _
  rw [countP_pairs_mul, pow_two]

/-- C2: the diagonal entry `graph[w][w]` of the built graph is the sum
over the phrases of the square of the number of non-stop occurrences of
canonical key `w` in the phrase, and in general each ordered pair of
non-stop tokens in a phrase's Cartesian product with itself contributes
exactly one to `graph[canon(word)][canon(coword)]`. -/
theorem cog_diagonal_squares_and_pair_counts (stop : Token → Bool) (canon : Token → String)
    (phrases : List (List Token)) (w a b : String) :
    lookupW (generate_word_co_occurance_graph stop canon phrases) w w
      = (phrases.map fun p => (p.countP fun t => !stop t && (canon t == w)) ^ 2).sum
    ∧ lookupW (generate_word_co_occurance_graph stop canon phrases) a b
      = (phrases.map fun p => (prodPairs p p).countP
          (fun wc => !stop wc.1 && !stop wc.2 && (canon wc.1 == a) && (canon wc.2 == b))).sum := by
  constructor
  · exact lookupW_build_diag stop canon phrases w
  · rw [lookupW_build]
    congr 1
    apply List.map_congr_left
    intro p _
    apply List.countP_congr
    intro wc _
    cases h1 : stop wc.1 <;> cases h2 : stop wc.2 <;> simp [h1, h2]

/-! ## Lemmas: word scorers observe but do not change weights -/

theorem freqState_lookupW (g : Cog) (k a b : String) :
    lookupW (aset k (cellGet ((rowGet g k).1) k).2 (rowGet g k).2) a b = lookupW g a b := by
  unfold lookupW
  rw [alook_aset]
  by_cases hka : k = a
  · subst hka
    simp only [ite_true, if_pos, Option.getD_some]
    rw [alook_cellGet_snd, rowGet_fst]
    by_cases hkb : k = b
    · subst hkb
      simp
    · simp [hkb]
  · simp only [hka, ite_false, if_neg]
    rw [alook_rowGet_snd]
    simp [hka]

theorem freqState_rowSumv (g : Cog) (k a : String) :
    rowSumv (aset k (cellGet ((rowGet g k).1) k).2 (rowGet g k).2) a = rowSumv g a := by
  unfold rowSumv
  rw [alook_aset]
  by_cases hka : k = a
  · subst hka
    simp only [ite_true, if_pos, Option.getD_some]
    rw [sum_cellGet_snd, rowGet_fst]
  · simp only [hka, ite_false, if_neg]
    rw [alook_rowGet_snd]
    simp [hka]

theorem freqState_alook_self (g : Cog) (k : String) :
    alook k (aset k (cellGet ((rowGet g k).1) k).2 (rowGet g k).2)
      = some (cellGet ((rowGet g k).1) k).2 := by
  rw [alook_aset]
  simp

theorem DegreeScorer_val (canon : Token → String) (g : Cog) (t : Token) :
    (DegreeScorer canon g t).1 = (rowSumv g (canon t) : ℚ) := by
  simp only [DegreeScorer, rowSumv, rowGet_fst]

theorem FrequencyScorer_val (canon : Token → String) (g : Cog) (t : Token) :
    (FrequencyScorer canon g t).1 = (lookupW g (canon t) (canon t) : ℚ) := by
  simp only [FrequencyScorer, lookupW, cellGet_fst, rowGet_fst]

theorem DegreeToFrequencyScorer_val (canon : Token → String) (g : Cog) (t : Token) :
    (DegreeToFrequencyScorer canon g t).1
      = if lookupW g (canon t) (canon t) = 0 then 0
        else (rowSumv g (canon t) : ℚ) / (lookupW g (canon t) (canon t) : ℚ) := by
  unfold DegreeToFrequencyScorer
  have hfreq : (cellGet ((rowGet g (canon t)).1) (canon t)).1 = lookupW g (canon t) (canon t) := by
    rw [cellGet_fst, rowGet_fst]
    rfl
  have hdeg : ((rowGet (aset (canon t) (cellGet ((rowGet g (canon t)).1) (canon t)).2
      (rowGet g (canon t)).2) (canon t)).1.map Prod.snd).sum = rowSumv g (canon t) := by
    rw [rowGet_fst, freqState_alook_self]
    simp only [Option.getD_some]
    rw [sum_cellGet_snd, rowGet_fst]
    rfl
  simp only [hfreq, hdeg]

theorem LocationPenalizedFrequencyScorer_val (canon : Token → String) (g : Cog) (t : Token) :
    (LocationPenalizedFrequencyScorer canon g t).1
      = (lookupW g (canon t) (canon t) : ℚ) * (((t.docLen : ℚ) - (t.i : ℚ)) / (t.docLen : ℚ)) := by
  simp only [LocationPenalizedFrequencyScorer, lookupW, cellGet_fst, rowGet_fst]

theorem DegreeScorer_preserves (canon : Token → String) (g : Cog) (t : Token) (a b : String) :
    lookupW (DegreeScorer canon g t).2 a b = lookupW g a b
      ∧ rowSumv (DegreeScorer canon g t).2 a = rowSumv g a := by
  unfold DegreeScorer
  exact ⟨lookupW_rowGet g (canon t) a b, rowSumv_rowGet g (canon t) a⟩

theorem FrequencyScorer_preserves (canon : Token → String) (g : Cog) (t : Token) (a b : String) :
    lookupW (FrequencyScorer canon g t).2 a b = lookupW g a b
      ∧ rowSumv (FrequencyScorer canon g t).2 a = rowSumv g a := by
  unfold FrequencyScorer
  exact ⟨freqState_lookupW g (canon t) a b, freqState_rowSumv g (canon t) a⟩

theorem DegreeToFrequencyScorer_preserves (canon : Token → String) (g : Cog) (t : Token)
    (a b : String) :
    lookupW (DegreeToFrequencyScorer canon g t).2 a b = lookupW g a b
      ∧ rowSumv (DegreeToFrequencyScorer canon g t).2 a = rowSumv g a := by
  unfold DegreeToFrequencyScorer
  constructor
  · rw [lookupW_rowGet]
    exact freqState_lookupW g (canon t) a b
  · rw [rowSumv_rowGet]
    exact freqState_rowSumv g (canon t) a

theorem LocationPenalizedFrequencyScorer_preserves (canon : Token → String) (g : Cog) (t : Token)
    (a b : String) :
    lookupW (LocationPenalizedFrequencyScorer canon g t).2 a b = lookupW g a b
      ∧ rowSumv (LocationPenalizedFrequencyScorer canon g t).2 a = rowSumv g a := by
  unfold LocationPenalizedFrequencyScorer
  exact ⟨freqState_lookupW g (canon t) a b, freqState_rowSumv g (canon t) a⟩

/-- C3 counterexample: scoring a token whose canonical key is absent
from the built graph grows the underlying defaultdict (a fresh empty row
is inserted on read), so the graph after scoring is NOT equal to the
graph before scoring. -/
theorem scoring_mutates_graph :
    (DegreeScorer TextMapper
        (generate_word_co_occurance_graph BasicStopTokenIndicator TextMapper
          [[mkTok "a" false false false false 0 1]])
        (mkTok "b" false false false false 0 1)).2
      ≠ generate_word_co_occurance_graph BasicStopTokenIndicator TextMapper
          [[mkTok "a" false false false false 0 1]] := by
  decide

/-- C3 (amended): evaluating any of the four word scorers leaves every
weight of the graph unchanged — each entry reads back the same value
(absent entries still read 0) and every row sum (degree) is unchanged —
although the underlying defaultdict may gain explicit zero-weight
entries, so the dict object itself need not compare equal. -/
theorem scorers_preserve_weights (canon : Token → String) (g : Cog) (t : Token) (a b : String) :
    (lookupW (DegreeScorer canon g t).2 a b = lookupW g a b
      ∧ rowSumv (DegreeScorer canon g t).2 a = rowSumv g a)
    ∧ (lookupW (FrequencyScorer canon g t).2 a b = lookupW g a b
      ∧ rowSumv (FrequencyScorer canon g t).2 a = rowSumv g a)
    ∧ (lookupW (DegreeToFrequencyScorer canon g t).2 a b = lookupW g a b
      ∧ rowSumv (DegreeToFrequencyScorer canon g t).2 a = rowSumv g a)
    ∧ (lookupW (LocationPenalizedFrequencyScorer canon g t).2 a b = lookupW g a b
      ∧ rowSumv (LocationPenalizedFrequencyScorer canon g t).2 a = rowSumv g a) :=
  ⟨DegreeScorer_preserves canon g t a b, FrequencyScorer_preserves canon g t a b,
    DegreeToFrequencyScorer_preserves canon g t a b,
    LocationPenalizedFrequencyScorer_preserves canon g t a b⟩

/-- C7: `DegreeToFrequencyScorer` returns the token's degree (the row
sum of its canonical key) divided by the graph's diagonal entry for that
key, and returns 0 whenever that diagonal entry is 0, so no
division-by-zero failure is possible. -/
theorem degree_to_frequency_guarded (canon : Token → String) (g : Cog) (t : Token) :
    (DegreeToFrequencyScorer canon g t).1
      = if lookupW g (canon t) (canon t) = 0 then 0
        else (rowSumv g (canon t) : ℚ) / (lookupW g (canon t) (canon t) : ℚ) :=
  DegreeToFrequencyScorer_val canon g t

/-! ## Lemmas: the ranklist sort order -/

theorem strLeChars_total : ∀ l1 l2 : List Char,
    strLeChars l1 l2 = true ∨ strLeChars l2 l1 = true := by
  intro l1
  induction l1 with
  | nil => intro l2; left; rfl
  | cons a as ih =>
    intro l2
    cases l2 with
    | nil => right; rfl
    | cons b bs =>
      simp only [strLeChars]
      by_cases hab : a.toNat < b.toNat
      · left
        simp [hab]
      · by_cases hba : b.toNat < a.toNat
        · right
          simp [hba]
        · simp only [hab, hba, ite_false, if_neg]
          exact ih bs

theorem strLeChars_trans : ∀ l1 l2 l3 : List Char, strLeChars l1 l2 = true →
    strLeChars l2 l3 = true → strLeChars l1 l3 = true := by
  intro l1
  induction l1 with
  | nil => intro l2 l3 _ _; rfl
  | cons a as ih =>
    intro l2 l3 h12 h23
    cases l2 with
    | nil => simp [strLeChars] at h12
    | cons b bs =>
      cases l3 with
      | nil => simp [strLeChars] at h23
      | cons c cs =>
        simp only [strLeChars] at h12 h23 ⊢
        by_cases hab : a.toNat < b.toNat
        · by_cases hbc : b.toNat < c.toNat
          · have hac : a.toNat < c.toNat := lt_trans hab hbc
            simp [hac]
          · by_cases hcb : c.toNat < b.toNat
            · simp [hbc, hcb] at h23
            · have hac : a.toNat < c.toNat := by omega
              simp [hac]
        · by_cases hba : b.toNat < a.toNat
          · simp [hab, hba] at h12
          · by_cases hbc : b.toNat < c.toNat
            · have hac : a.toNat < c.toNat := by omega
              simp [hac]
            · by_cases hcb : c.toNat < b.toNat
              · simp [hbc, hcb] at h23
              · have hac1 : ¬ a.toNat < c.toNat := by omega
                have hac2 : ¬ c.toNat < a.toNat := by omega
                simp only [hab, hba, ite_false, if_neg] at h12
                simp only [hbc, hcb, ite_false, if_neg] at h23
                simp only [hac1, hac2, ite_false, if_neg]
                exact ih bs cs h12 h23

theorem strLe_total (s1 s2 : String) : strLe s1 s2 ∨ strLe s2 s1 :=
  strLeChars_total s1.data s2.data

theorem strLe_trans {s1 s2 s3 : String} (h12 : strLe s1 s2) (h23 : strLe s2 s3) :
    strLe s1 s3 :=
  strLeChars_trans s1.data s2.data s3.data h12 h23

instance (doc : List Token) : IsTotal (ℚ × Span) (rankKeyLe doc) := by
  constructor
  intro x y
  unfold rankKeyLe
  rcases lt_trichotomy x.1 y.1 with h | h | h
  · right
    left
    exact h
  · rcases strLe_total (spanText doc x.2) (spanText doc y.2) with hs | hs
    · left
      right
      exact ⟨h, hs⟩
    · right
      right
      exact ⟨h.symm, hs⟩
  · left
    left
    exact h

instance (doc : List Token) : IsTrans (ℚ × Span) (rankKeyLe doc) := by
  constructor
  intro x y z hxy hyz
  unfold rankKeyLe at hxy hyz ⊢
  rcases hxy with h1 | ⟨h1, hs1⟩
  · rcases hyz with h2 | ⟨h2, _⟩
    · left
      exact lt_trans h2 h1
    · left
      rw [← h2]
      exact h1
  · rcases hyz with h2 | ⟨h2, hs2⟩
    · left
      rw [h1]
      exact h2
    · right
      exact ⟨h1.trans h2, strLe_trans hs1 hs2⟩

/-- C6: both engines return a rank list sorted descending by score with
exact ties broken by the phrase's rendered text ascending (the sort key
relation is total, so the order is total), and extraction on identical
input yields identical output. -/
theorem ranklist_sorted_deterministic (cfg : Rake2Cfg) (canon : Token → String)
    (min_length max_length : Nat) (doc : List Token) :
    List.Sorted (rankKeyLe doc) (apply_to_doc cfg doc)
    ∧ List.Sorted (rankKeyLe doc) (rake1Apply canon min_length max_length doc)
    ∧ apply_to_doc cfg doc = apply_to_doc cfg doc
    ∧ rake1Apply canon min_length max_length doc = rake1Apply canon min_length max_length doc
    ∧ (∀ x y : ℚ × Span, rankKeyLe doc x y ∨ rankKeyLe doc y x) := by
  refine ⟨?_, ?_, rfl, rfl, fun x y => IsTotal.total x y⟩
  · simp only [apply_to_doc, generate_ranklist]
    exact List.sorted_insertionSort _ _
  · simp only [rake1Apply]
    exact List.sorted_insertionSort _ _

/-! ## Lemmas: the ranklist is a permutation of the filtered phrases -/

theorem scorePhrases_fst_map_snd (scorer : Cog → Token → ℚ × Cog) (doc : List Token) :
    ∀ (g : Cog) (ps : List Span), ((scorePhrases scorer doc g ps).1).map Prod.snd = ps := by
  intro g ps
  induction ps generalizing g with
  | nil => simp [scorePhrases]
  | cons p rest ih => simp [scorePhrases, ih]

/-- C10: the returned rank list has exactly one `(score, phrase)` pair
per candidate phrase that passed the length filter: its length equals the
number of filtered phrases, and its phrases are a permutation of them. -/
theorem ranklist_one_pair_per_phrase (cfg : Rake2Cfg) (doc : List Token) :
    (apply_to_doc cfg doc).length = (filteredPhrases cfg doc).length
    ∧ ((apply_to_doc cfg doc).map Prod.snd).Perm (filteredPhrases cfg doc) := by
  simp only [apply_to_doc, generate_ranklist]
  have hmap := scorePhrases_fst_map_snd cfg.word_scorer_class doc
    (generate_word_co_occurance_graph cfg.stop_token_class cfg.token_mapper_class
      ((filteredPhrases cfg doc).map (spanTokens doc)))
    (filteredPhrases cfg doc)
  have hperm := List.perm_insertionSort (rankKeyLe doc)
    (((scorePhrases cfg.word_scorer_class doc
      (generate_word_co_occurance_graph cfg.stop_token_class cfg.token_mapper_class
        ((filteredPhrases cfg doc).map (spanTokens doc)))
      (filteredPhrases cfg doc)).1).map fun x => (cfg.aggregator_class x.1, x.2))
  constructor
  · rw [hperm.length_eq, List.length_map]
    have := congrArg List.length hmap
    rw [List.length_map] at this
    exact this
  · have h2 := hperm.map Prod.snd
    rw [List.map_map] at h2
    have h3 : (((scorePhrases cfg.word_scorer_class doc
        (generate_word_co_occurance_graph cfg.stop_token_class cfg.token_mapper_class
          ((filteredPhrases cfg doc).map (spanTokens doc)))
        (filteredPhrases cfg doc)).1).map
          (Prod.snd ∘ fun x => (cfg.aggregator_class x.1, x.2))) = filteredPhrases cfg doc := hmap
    rw [h3] at h2
    exact h2

/-! ## The penalized-norm aggregator -/

/-- C8: `PenalizedNormAggregator(threshold)` returns the Euclidean norm
of the score list divided by `D`, where `D` counts the non-zero scores
except that it is forced to 1 when `1 <= D <= threshold`; it returns 0
when `D` is 0 — in particular 0 on an all-zero or empty list — and on
`[1,1,1]` with threshold 5 it divides by 1, not by 3. -/
theorem penalized_norm_aggregator_spec :
    (∀ (threshold : Nat) (scores : List ℚ),
      PenalizedNormAggregator threshold scores
        = if (scores.filter fun s => decide (s ≠ 0)).length = 0 then 0
          else normEuclid scores /
            (if 1 ≤ (scores.filter fun s => decide (s ≠ 0)).length
                ∧ (scores.filter fun s => decide (s ≠ 0)).length ≤ threshold
              then 1
              else ((scores.filter fun s => decide (s ≠ 0)).length : ℝ)))
    ∧ PenalizedNormAggregator 5 [0, 0, 0] = 0
    ∧ PenalizedNormAggregator 5 [] = 0
    ∧ PenalizedNormAggregator 5 [1, 1, 1] = normEuclid [1, 1, 1] / 1
    ∧ PenalizedNormAggregator 5 [1, 1, 1] ≠ normEuclid [1, 1, 1] / 3 := by
  have hgen : ∀ (threshold : Nat) (scores : List ℚ),
      PenalizedNormAggregator threshold scores
        = if (scores.filter fun s => decide (s ≠ 0)).length = 0 then 0
          else normEuclid scores /
            (if 1 ≤ (scores.filter fun s => decide (s ≠ 0)).length
                ∧ (scores.filter fun s => decide (s ≠ 0)).length ≤ threshold
              then 1
              else ((scores.filter fun s => decide (s ≠ 0)).length : ℝ)) := by
    intro threshold scores
    simp only [PenalizedNormAggregator]
    by_cases hrange : 1 ≤ (scores.filter fun s => decide (s ≠ 0)).length
        ∧ (scores.filter fun s => decide (s ≠ 0)).length ≤ threshold
    · rw [if_pos hrange, if_pos hrange]
      have hD0 : ¬ (scores.filter fun s => decide (s ≠ 0)).length = 0 := by
        have := hrange.1
        omega
      rw [if_neg hD0, if_pos (by norm_num : (1 : Nat) ≠ 0)]
      norm_num
    · rw [if_neg hrange, if_neg hrange]
      by_cases hD : (scores.filter fun s => decide (s ≠ 0)).length = 0
      · rw [if_pos hD, hD]
        simp
      · rw [if_neg hD, if_pos hD]
  have hfil1 : (([1, 1, 1] : List ℚ).filter fun s => decide (s ≠ 0)) = [1, 1, 1] := by
    norm_num [List.filter]
  have hfil0 : (([0, 0, 0] : List ℚ).filter fun s => decide (s ≠ 0)) = [] := by
    norm_num [List.filter]
  have hnorm : normEuclid [1, 1, 1] = Real.sqrt 3 := by
    unfold normEuclid
    norm_num
  have hpos : (0 : ℝ) < Real.sqrt 3 := Real.sqrt_pos.mpr (by norm_num)
  refine ⟨hgen, ?_, ?_, ?_, ?_⟩
  · rw [hgen, hfil0]
    simp
  · rw [hgen]
    simp [List.filter]
  · rw [hgen, hfil1]
    norm_num
  · rw [hgen, hfil1, hnorm]
    norm_num
    intro hcontra
    rw [eq_div_iff (by norm_num : (3 : ℝ) ≠ 0)] at hcontra
    linarith [hpos]

/-! ## Construction never validates the bounds -/

/-- C5 counterexample: constructing the engine with `max_length = 2`
below `min_length = 5` does NOT fail with a `ConfigurationError`: the
constructor performs no validation and returns a configured engine. -/
theorem construction_never_fails : (rake2Init 5 2).isOk = true := rfl

/-- C5 (amended): constructing with `max_length < min_length` succeeds
(no validation exists, at construction or later), and extraction under
such bounds silently returns the empty rank list for both engine
iterations, because no phrase can pass the inclusive length filter. -/
theorem invalid_bounds_not_detected (min_length max_length : Nat) (canon : Token → String)
    (doc : List Token) (h : max_length < min_length) :
    (rake2Init min_length max_length).isOk = true
    ∧ (∀ cfg, rake2Init min_length max_length = Except.ok cfg → apply_to_doc cfg doc = [])
    ∧ rake1Apply canon min_length max_length doc = [] := by
  have hfilter : ∀ (ps : List Span), (ps.filter fun p =>
      decide (min_length ≤ (spanTokens doc p).length) &&
        decide ((spanTokens doc p).length ≤ max_length)) = [] := by
    intro ps
    rw [List.filter_eq_nil_iff]
    intro p _
    simp only [Bool.and_eq_true, decide_eq_true_eq, not_and]
    intro h1 h2
    omega
  refine ⟨rfl, ?_, ?_⟩
  · intro cfg hcfg
    have hc : cfg = ⟨min_length, max_length, BasicStopTokenIndicator,
        ContiguousNonStopTokenPhraser BasicStopTokenIndicator, LemmaMapper,
        FrequencyScorer LemmaMapper, SumAggregator⟩ := by
      unfold rake2Init at hcfg
      exact (Except.ok.inj hcfg).symm
    subst hc
    simp only [apply_to_doc, filteredPhrases, hfilter, List.map_nil]
    simp [generate_ranklist, scorePhrases]
  · simp only [rake1Apply, hfilter, List.map_nil]
    simp

/-- Witness for the amended C5 theorem at the concrete bounds 5 and 2 on
the example document. -/
theorem invalid_bounds_witness :
    (2 : Nat) < 5 ∧ rake1Apply TextMapper 5 2 exDoc = []
      ∧ (rake2Init 5 2).isOk = true :=
  ⟨by norm_num, (invalid_bounds_not_detected 5 2 TextMapper exDoc (by norm_num)).2.2,
    (invalid_bounds_not_detected 5 2 TextMapper exDoc (by norm_num)).1⟩

/-! ## Lemmas: the two engines at the original-RAKE configuration -/

theorem scoreTokens_dtf (canon : Token → String) :
    ∀ (ts : List Token) (g : Cog),
      (scoreTokens (DegreeToFrequencyScorer canon) g ts).1
        = ts.map (fun t => if lookupW g (canon t) (canon t) = 0 then 0
            else (rowSumv g (canon t) : ℚ) / (lookupW g (canon t) (canon t) : ℚ))
      ∧ (∀ a b, lookupW (scoreTokens (DegreeToFrequencyScorer canon) g ts).2 a b = lookupW g a b)
      ∧ (∀ a, rowSumv (scoreTokens (DegreeToFrequencyScorer canon) g ts).2 a = rowSumv g a) := by
  intro ts
  induction ts with
  | nil => exact fun g => ⟨rfl, fun a b => rfl, fun a => rfl⟩
  | cons t ts ih =>
    intro g
    obtain ⟨ihv, ihl, ihs⟩ := ih (DegreeToFrequencyScorer canon g t).2
    refine ⟨?_, ?_, ?_⟩
    · simp only [scoreTokens, List.map_cons]
      rw [ihv, DegreeToFrequencyScorer_val]
      congr 1
      apply List.map_congr_left
      intro x _
      rw [(DegreeToFrequencyScorer_preserves canon g t (canon x) (canon x)).1,
        (DegreeToFrequencyScorer_preserves canon g t (canon x) (canon x)).2]
    · intro a b
      simp only [scoreTokens]
      rw [ihl a b, (DegreeToFrequencyScorer_preserves canon g t a b).1]
    · intro a
      simp only [scoreTokens]
      rw [ihs a, (DegreeToFrequencyScorer_preserves canon g t a a).2]

theorem scorePhrases_dtf (canon : Token → String) (doc : List Token) :
    ∀ (ps : List Span) (g : Cog),
      ((scorePhrases (DegreeToFrequencyScorer canon) doc g ps).1)
        = ps.map (fun p => ((spanTokens doc p).map (fun t =>
            if lookupW g (canon t) (canon t) = 0 then 0
            else (rowSumv g (canon t) : ℚ) / (lookupW g (canon t) (canon t) : ℚ)), p))
      ∧ (∀ a b, lookupW (scorePhrases (DegreeToFrequencyScorer canon) doc g ps).2 a b
          = lookupW g a b)
      ∧ (∀ a, rowSumv (scorePhrases (DegreeToFrequencyScorer canon) doc g ps).2 a
          = rowSumv g a) := by
  intro ps
  induction ps with
  | nil => exact fun g => ⟨rfl, fun a b => rfl, fun a => rfl⟩
  | cons p ps ih =>
    intro g
    obtain ⟨htv, htl, hts⟩ := scoreTokens_dtf canon (spanTokens doc p) g
    obtain ⟨ihv, ihl, ihs⟩ :=
      ih (scoreTokens (DegreeToFrequencyScorer canon) g (spanTokens doc p)).2
    refine ⟨?_, ?_, ?_⟩
    · simp only [scorePhrases, List.map_cons]
      rw [ihv, htv]
      congr 1
      apply List.map_congr_left
      intro q _
      have : ((spanTokens doc q).map (fun t =>
          if lookupW (scoreTokens (DegreeToFrequencyScorer canon) g (spanTokens doc p)).2
              (canon t) (canon t) = 0 then 0
          else (rowSumv (scoreTokens (DegreeToFrequencyScorer canon) g (spanTokens doc p)).2
              (canon t) : ℚ)
            / (lookupW (scoreTokens (DegreeToFrequencyScorer canon) g (spanTokens doc p)).2
              (canon t) (canon t) : ℚ)))
          = ((spanTokens doc q).map (fun t =>
            if lookupW g (canon t) (canon t) = 0 then 0
            else (rowSumv g (canon t) : ℚ) / (lookupW g (canon t) (canon t) : ℚ))) := by
        apply List.map_congr_left
        intro x _
        rw [htl (canon x) (canon x), hts (canon x)]
      rw [this]
    · intro a b
      simp only [scorePhrases]
      rw [ihl a b, htl a b]
    · intro a
      simp only [scorePhrases]
      rw [ihs a, hts a]

theorem fd_eq_sum_counts (stop : Token → Bool) (canon : Token → String)
    (ps : List (List Token)) (k : String) :
    generate_frequency_dist stop canon ps k
      = (ps.map fun p => p.countP fun t => !stop t && (canon t == k)).sum := by
  unfold generate_frequency_dist
  rw [List.count_eq_countP, List.countP_map]
  have h1 : (List.countP ((fun x => x == k) ∘ canon) (ps.flatten.filter fun t => !stop t))
      = List.countP (fun t => !stop t && (canon t == k)) ps.flatten := by
    rw [List.countP_filter]
    apply List.countP_congr
    intro t _
    simp [Function.comp, Bool.and_comm]
  rw [h1, List.countP_flatten]

theorem countP_le_one_of_nodup (stop : Token → Bool) (canon : Token → String)
    (p : List Token) (h : ((p.filter fun t => !stop t).map canon).Nodup) (k : String) :
    p.countP (fun t => !stop t && (canon t == k)) ≤ 1 := by
  have h1 := List.nodup_iff_count_le_one.mp h k
  rw [List.count_eq_countP, List.countP_map, List.countP_filter] at h1
  have h2 : List.countP (fun t => !stop t && (canon t == k)) p
      = List.countP (fun t => ((fun x => x == k) ∘ canon) t && (!stop t)) p := by
    apply List.countP_congr
    intro t _
    simp [Function.comp, Bool.and_comm]
  rw [h2]
  exact h1

theorem diag_eq_fd (stop : Token → Bool) (canon : Token → String)
    (ps : List (List Token)) (h : ∀ p ∈ ps, ((p.filter fun t => !stop t).map canon).Nodup)
    (k : String) :
    lookupW (generate_word_co_occurance_graph stop canon ps) k k
      = generate_frequency_dist stop canon ps k := by
  rw [lookupW_build_diag, fd_eq_sum_counts]
  congr 1
  apply List.map_congr_left
  intro p hp
  have hle := countP_le_one_of_nodup stop canon p (h p hp) k
  have hcases : p.countP (fun t => !stop t && (canon t == k)) = 0
      ∨ p.countP (fun t => !stop t && (canon t == k)) = 1 := by omega
  rcases hcases with h0 | h1
  · rw [h0]
    norm_num
  · rw [h1]
    norm_num

/-- C4 (amended): the two engine iterations at the documented
original-RAKE configuration (raw-text canonicalization, contiguous
non-stop phrasing, degree-to-frequency scoring, sum aggregation) return
the same ranked list whenever no candidate phrase repeats a canonical
key; in general they differ, because `rake.py` divides the degree by the
independent occurrence count while `rake2.py` divides it by the graph's
diagonal self-weight. -/
theorem original_rake_configs_agree (doc : List Token)
    (h : ∀ p ∈ filteredPhrases origRakeCfg doc,
      (((spanTokens doc p).filter fun t => !BasicStopTokenIndicator t).map TextMapper).Nodup) :
    rake1Apply TextMapper 1 100000 doc = apply_to_doc origRakeCfg doc := by
  have h1 : rake1Apply TextMapper 1 100000 doc
      = List.insertionSort (rankKeyLe doc)
          ((filteredPhrases origRakeCfg doc).map fun p =>
            (((spanTokens doc p).map (rake1WordScore TextMapper
                (generate_word_co_occurance_graph BasicStopTokenIndicator TextMapper
                  ((filteredPhrases origRakeCfg doc).map (spanTokens doc)))
                (generate_frequency_dist BasicStopTokenIndicator TextMapper
                  ((filteredPhrases origRakeCfg doc).map (spanTokens doc))))).sum, p)) := rfl
  have h2 : apply_to_doc origRakeCfg doc
      = List.insertionSort (rankKeyLe doc)
          (((scorePhrases (DegreeToFrequencyScorer TextMapper) doc
              (generate_word_co_occurance_graph BasicStopTokenIndicator TextMapper
                ((filteredPhrases origRakeCfg doc).map (spanTokens doc)))
              (filteredPhrases origRakeCfg doc)).1).map fun x => (SumAggregator x.1, x.2)) := rfl
  have hmem : ∀ q ∈ (filteredPhrases origRakeCfg doc).map (spanTokens doc),
      ((q.filter fun t => !BasicStopTokenIndicator t).map TextMapper).Nodup := by
    intro q hq
    obtain ⟨p, hp, hpq⟩ := List.mem_map.mp hq
    rw [← hpq]
    exact h p hp
  have hdf : ∀ k, lookupW (generate_word_co_occurance_graph BasicStopTokenIndicator TextMapper
      ((filteredPhrases origRakeCfg doc).map (spanTokens doc))) k k
      = generate_frequency_dist BasicStopTokenIndicator TextMapper
          ((filteredPhrases origRakeCfg doc).map (spanTokens doc)) k :=
    diag_eq_fd BasicStopTokenIndicator TextMapper
      ((filteredPhrases origRakeCfg doc).map (spanTokens doc)) hmem
  have htok : ∀ t : Token,
      rake1WordScore TextMapper
          (generate_word_co_occurance_graph BasicStopTokenIndicator TextMapper
            ((filteredPhrases origRakeCfg doc).map (spanTokens doc)))
          (generate_frequency_dist BasicStopTokenIndicator TextMapper
            ((filteredPhrases origRakeCfg doc).map (spanTokens doc))) t
        = (if lookupW (generate_word_co_occurance_graph BasicStopTokenIndicator TextMapper
              ((filteredPhrases origRakeCfg doc).map (spanTokens doc)))
              (TextMapper t) (TextMapper t) = 0 then 0
            else (rowSumv (generate_word_co_occurance_graph BasicStopTokenIndicator TextMapper
                ((filteredPhrases origRakeCfg doc).map (spanTokens doc))) (TextMapper t) : ℚ)
              / (lookupW (generate_word_co_occurance_graph BasicStopTokenIndicator TextMapper
                ((filteredPhrases origRakeCfg doc).map (spanTokens doc)))
                (TextMapper t) (TextMapper t) : ℚ)) := by
    intro t
    simp only [rake1WordScore]
    rw [hdf (TextMapper t)]
    by_cases h0 : generate_frequency_dist BasicStopTokenIndicator TextMapper
        ((filteredPhrases origRakeCfg doc).map (spanTokens doc)) (TextMapper t) = 0
    · simp [h0]
    · have hpos : 0 < generate_frequency_dist BasicStopTokenIndicator TextMapper
          ((filteredPhrases origRakeCfg doc).map (spanTokens doc)) (TextMapper t) :=
        Nat.pos_of_ne_zero h0
      simp [h0, hpos]
  rw [h1, h2]
  obtain ⟨hval, _, _⟩ := scorePhrases_dtf TextMapper doc (filteredPhrases origRakeCfg doc)
    (generate_word_co_occurance_graph BasicStopTokenIndicator TextMapper
      ((filteredPhrases origRakeCfg doc).map (spanTokens doc)))
  rw [hval, List.map_map]
  congr 1
  apply List.map_congr_left
  intro p _
  simp only [Function.comp, SumAggregator]
  congr 2
  apply List.map_congr_left
  intro t _
  exact htok t

/-- C4 counterexample: on the document "big big" (one candidate phrase
repeating one word) the two engines disagree: `rake.py` scores the
phrase 4 (degree 4 over frequency 2, summed over two tokens) while
`rake2.py` scores it 2 (degree 4 over diagonal 4, summed). -/
theorem rake_engines_disagree :
    rake1Apply TextMapper 1 100000 bigDoc ≠ apply_to_doc origRakeCfg bigDoc := by
  have h1 : rake1Apply TextMapper 1 100000 bigDoc = [((4 : ℚ), ⟨0, 2⟩)] := by
    norm_num [rake1Apply, ContiguousNonStopTokenPhraser, runsBy, bigDoc, mkTok,
      BasicStopTokenIndicator, spanOf, spanTokens, List.takeWhile, List.dropWhile,
      rake1WordScore, TextMapper, generate_frequency_dist, generate_word_co_occurance_graph,
      prodPairs, cogIncr, rowGet, cellGet, alook, aset, lookupW, rowSumv,
      List.insertionSort, List.count, List.countP, List.countP.go]
  have h2 : apply_to_doc origRakeCfg bigDoc = [((2 : ℚ), ⟨0, 2⟩)] := by
    norm_num [apply_to_doc, origRakeCfg, filteredPhrases, ContiguousNonStopTokenPhraser,
      runsBy, bigDoc, mkTok, BasicStopTokenIndicator, spanOf, spanTokens, List.takeWhile,
      List.dropWhile, generate_word_co_occurance_graph, prodPairs, cogIncr, rowGet, cellGet,
      alook, aset, generate_ranklist, scorePhrases, scoreTokens, DegreeToFrequencyScorer,
      TextMapper, SumAggregator, List.insertionSort]
  rw [h1, h2]
  intro hc
  simp only [List.cons.injEq, Prod.mk.injEq] at hc
  exact absurd hc.1.1 (by norm_num)

/-- Witness for the amended C4 theorem: on the example document no
candidate phrase repeats a canonical key, and the two engines agree. -/
theorem original_rake_configs_agree_witness :
    rake1Apply TextMapper 1 100000 exDoc = apply_to_doc origRakeCfg exDoc :=
  original_rake_configs_agree exDoc (by
    norm_num [filteredPhrases, origRakeCfg, ContiguousNonStopTokenPhraser, runsBy, exDoc,
      mkTok, BasicStopTokenIndicator, spanOf, spanTokens, List.takeWhile, List.dropWhile,
      TextMapper]
    decide)

/-! ## Lemmas: the contiguous-run phraser -/

theorem takeWhile_eq_take_len (p : Token → Bool) :
    ∀ l : List Token, l.takeWhile p = l.take (l.takeWhile p).length := by
  intro l
  induction l with
  | nil => simp
  | cons a l ih =>
    cases hpa : p a
    · simp [List.takeWhile_cons, hpa]
    · simp only [List.takeWhile_cons, hpa, ite_true, if_pos, List.length_cons,
        List.take_succ_cons]
      rw [← ih]

theorem dropWhile_eq_drop_len (p : Token → Bool) :
    ∀ l : List Token, l.dropWhile p = l.drop (l.takeWhile p).length := by
  intro l
  induction l with
  | nil => simp
  | cons a l ih =>
    cases hpa : p a
    · simp [List.dropWhile_cons, List.takeWhile_cons, hpa]
    · simp only [List.dropWhile_cons, List.takeWhile_cons, hpa, ite_true, if_pos,
        List.length_cons, List.drop_succ_cons]
      exact ih

theorem keepAt_takeWhile_boundary (p : Token → Bool) :
    ∀ l : List Token, keepAt p l ((l.takeWhile p).length) = false := by
  intro l
  induction l with
  | nil => rfl
  | cons a l ih =>
    cases hpa : p a
    · simp [List.takeWhile_cons, hpa, keepAt]
    · simp only [List.takeWhile_cons, hpa, ite_true, if_pos, List.length_cons, keepAt,
        List.getElem?_cons_succ]
      exact ih

theorem keepAt_takeWhile_interior (p : Token → Bool) :
    ∀ (l : List Token) (j : Nat), j < (l.takeWhile p).length → keepAt p l j = true := by
  intro l
  induction l with
  | nil => simp
  | cons a l ih =>
    intro j hj
    cases hpa : p a
    · rw [List.takeWhile_cons, hpa] at hj
      simp at hj
    · rw [List.takeWhile_cons, hpa] at hj
      simp only [ite_true, if_pos, List.length_cons] at hj
      cases j with
      | zero => simp [keepAt, hpa]
      | succ j =>
        simp only [keepAt, List.getElem?_cons_succ]
        exact ih j (by omega)

theorem takeWhile_length_eq (p : Token → Bool) (l : List Token) (m : Nat)
    (h1 : ∀ j, j < m → keepAt p l j = true) (h2 : keepAt p l m = false) :
    (l.takeWhile p).length = m := by
  rcases Nat.lt_trichotomy (l.takeWhile p).length m with hlt | heq | hgt
  · have hb := keepAt_takeWhile_boundary p l
    have ht := h1 _ hlt
    rw [hb] at ht
    exact Bool.noConfusion ht
  · exact heq
  · have ht := keepAt_takeWhile_interior p l m hgt
    rw [h2] at ht
    exact Bool.noConfusion ht

theorem keepAt_drop (p : Token → Bool) (doc : List Token) (off j : Nat) :
    keepAt p (doc.drop off) j = keepAt p doc (off + j) := by
  unfold keepAt
  rw [List.getElem?_drop]

theorem wf_index (doc : List Token) (hwf : WFDoc doc) (k : Nat) (t : Token)
    (h : doc[k]? = some t) : t.i = k := by
  have hk : k < doc.length := by
    by_contra hge
    rw [List.getElem?_eq_none (by omega)] at h
    exact Option.noConfusion h
  rw [List.getElem?_eq_getElem hk] at h
  have hwfk := hwf k hk
  rw [← Option.some.inj h]
  exact hwfk

theorem drop_cons_head (doc : List Token) (off : Nat) (t : Token) (ts : List Token)
    (h : doc.drop off = t :: ts) : doc[off]? = some t := by
  have h0 : (doc.drop off)[0]? = some t := by
    rw [h]
    simp
  rw [List.getElem?_drop] at h0
  simpa using h0

theorem drop_cons_tail (doc : List Token) (off : Nat) (t : Token) (ts : List Token)
    (h : doc.drop off = t :: ts) : ts = doc.drop (off + 1) := by
  have h0 := congrArg List.tail h
  rw [List.tail_drop] at h0
  exact h0.symm

theorem mem_takeWhile_keep (p : Token → Bool) :
    ∀ (l : List Token) (x : Token), x ∈ l.takeWhile p → p x = true := by
  intro l
  induction l with
  | nil => simp
  | cons a l ih =>
    intro x hx
    cases hpa : p a
    · rw [List.takeWhile_cons, hpa] at hx
      simp at hx
    · rw [List.takeWhile_cons, hpa] at hx
      simp only [ite_true, if_pos, List.mem_cons] at hx
      rcases hx with rfl | hx
      · exact hpa
      · exact ih x hx

theorem spanOf_head_group (keep : Token → Bool) (doc : List Token) (hwf : WFDoc doc)
    (off : Nat) (t : Token) (ts : List Token) (hdoc : doc.drop off = t :: ts) :
    spanOf (t :: ts.takeWhile keep)
        = ⟨off, off + 1 + (ts.takeWhile keep).length⟩
      ∧ spanTokens doc ⟨off, off + 1 + (ts.takeWhile keep).length⟩
        = t :: ts.takeWhile keep := by
  have hg1 : t :: ts.takeWhile keep = (doc.drop off).take ((ts.takeWhile keep).length + 1) := by
    rw [hdoc, List.take_succ_cons, ← takeWhile_eq_take_len]
  have hoff : doc[off]? = some t := drop_cons_head doc off t ts hdoc
  have hti : t.i = off := wf_index doc hwf off t hoff
  have hmlt : (ts.takeWhile keep).length < (t :: ts.takeWhile keep).length := by simp
  have hx := List.getElem?_eq_getElem hmlt
  have hx2 : (t :: ts.takeWhile keep)[(ts.takeWhile keep).length]?
      = doc[off + (ts.takeWhile keep).length]? := by
    conv_lhs => rw [hg1]
    rw [List.getElem?_take, if_pos (Nat.lt_succ_self _), List.getElem?_drop]
  have hxdoc : doc[off + (ts.takeWhile keep).length]?
      = some ((t :: ts.takeWhile keep).get ⟨(ts.takeWhile keep).length, hmlt⟩) := by
    rw [← hx2]
    exact hx
  have hxi : ((t :: ts.takeWhile keep).get ⟨(ts.takeWhile keep).length, hmlt⟩).i
      = off + (ts.takeWhile keep).length :=
    wf_index doc hwf _ _ hxdoc
  have hlast : (t :: ts.takeWhile keep).getLast?
      = some ((t :: ts.takeWhile keep).get ⟨(ts.takeWhile keep).length, hmlt⟩) := by
    rw [List.getLast?_eq_getElem?]
    simp only [List.length_cons, Nat.add_sub_cancel]
    exact hx
  constructor
  · unfold spanOf
    rw [hlast]
    simp only [List.head?_cons, Option.map_some', Option.getD_some]
    rw [hti, hxi]
    have he : off + (ts.takeWhile keep).length + 1 = off + 1 + (ts.takeWhile keep).length := by
      omega
    rw [he]
  · unfold spanTokens
    have hsub : off + 1 + (ts.takeWhile keep).length - off = (ts.takeWhile keep).length + 1 := by
      omega
    rw [hsub, ← hg1]

theorem takeWhile_length_le (p : Token → Bool) :
    ∀ l : List Token, (l.takeWhile p).length ≤ l.length := by
  intro l
  induction l with
  | nil => simp
  | cons a l ih =>
    cases hpa : p a
    · simp [List.takeWhile_cons, hpa]
    · simp only [List.takeWhile_cons, hpa, ite_true, if_pos, List.length_cons]
      omega

theorem runs_slice_aux (keep : Token → Bool) (doc : List Token) (hwf : WFDoc doc) :
    ∀ (N off : Nat), doc.length - off ≤ N →
      ∀ g ∈ runsBy keep (doc.drop off),
        spanTokens doc (spanOf g) = g ∧ g ≠ [] ∧ (∀ t ∈ g, keep t = true) := by
  intro N
  induction N with
  | zero =>
    intro off hoff g hg
    have h0 : (doc.drop off).length = 0 := by
      have hl := List.length_drop off doc
      omega
    have hnil : doc.drop off = [] := List.length_eq_zero.mp h0
    rw [hnil] at hg
    simp [runsBy] at hg
  | succ N ih =>
    intro off hoff g hg
    cases hdoc : doc.drop off with
    | nil =>
      rw [hdoc] at hg
      simp [runsBy] at hg
    | cons t ts =>
      rw [hdoc] at hg
      have hts : ts = doc.drop (off + 1) := drop_cons_tail doc off t ts hdoc
      have hofflt : off < doc.length := by
        have h1 := List.length_drop off doc
        rw [hdoc] at h1
        simp only [List.length_cons] at h1
        omega
      have htslen : ts.length = doc.length - (off + 1) := by
        rw [hts]
        exact List.length_drop (off + 1) doc
      cases hk : keep t with
      | false =>
        simp only [runsBy, hk, Bool.false_eq_true, if_false, ite_false] at hg
        rw [hts] at hg
        exact ih (off + 1) (by omega) g hg
      | true =>
        simp only [runsBy, hk, ite_true, if_pos, List.mem_cons] at hg
        rcases hg with rfl | hg
        · obtain ⟨hspan, hslice⟩ := spanOf_head_group keep doc hwf off t ts hdoc
          refine ⟨?_, by simp, ?_⟩
          · rw [hspan, hslice]
          · intro x hx
            rcases List.mem_cons.mp hx with rfl | hx2
            · exact hk
            · exact mem_takeWhile_keep keep ts x hx2
        · rw [dropWhile_eq_drop_len, hts, List.drop_drop] at hg
          have hmle : ((doc.drop (off + 1)).takeWhile keep).length ≤ doc.length - (off + 1) := by
            have h2 : ((doc.drop (off + 1)).takeWhile keep).length ≤ (doc.drop (off + 1)).length :=
              takeWhile_length_le _ _
            rw [List.length_drop] at h2
            exact h2
          exact ih (off + 1 + ((doc.drop (off + 1)).takeWhile keep).length) (by omega) g hg

theorem runs_maximal_fwd_aux (keep : Token → Bool) (doc : List Token) (hwf : WFDoc doc) :
    ∀ (N off : Nat), doc.length - off ≤ N →
      ((off = 0 ∨ keepAt keep doc (off - 1) = false) ∨ keepAt keep doc off = false) →
      ∀ s e, Span.mk s e ∈ (runsBy keep (doc.drop off)).map spanOf →
        IsMaximalRun keep doc s e := by
  intro N
  induction N with
  | zero =>
    intro off hoff _ s e hmem
    have h0 : (doc.drop off).length = 0 := by
      have hl := List.length_drop off doc
      omega
    rw [List.length_eq_zero.mp h0] at hmem
    simp [runsBy] at hmem
  | succ N ih =>
    intro off hoff hcond s e hmem
    cases hdoc : doc.drop off with
    | nil =>
      rw [hdoc] at hmem
      simp [runsBy] at hmem
    | cons t ts =>
      rw [hdoc] at hmem
      have hts : ts = doc.drop (off + 1) := drop_cons_tail doc off t ts hdoc
      have hofft : doc[off]? = some t := drop_cons_head doc off t ts hdoc
      have hkeepAtOff : keepAt keep doc off = keep t := by
        unfold keepAt
        rw [hofft]
      have hofflt : off < doc.length := by
        have h1 := List.length_drop off doc
        rw [hdoc] at h1
        simp only [List.length_cons] at h1
        omega
      have htslen : ts.length = doc.length - (off + 1) := by
        rw [hts]
        exact List.length_drop (off + 1) doc
      have hkeepts : ∀ j, keepAt keep ts j = keepAt keep doc (off + 1 + j) := by
        intro j
        rw [hts, keepAt_drop]
      cases hk : keep t with
      | false =>
        simp only [runsBy, hk, Bool.false_eq_true, if_false, ite_false] at hmem
        rw [hts] at hmem
        apply ih (off + 1) (by omega) ?_ s e hmem
        left
        right
        simp only [Nat.add_sub_cancel]
        rw [hkeepAtOff]
        exact hk
      | true =>
        simp only [runsBy, hk, ite_true, if_pos, List.map_cons, List.mem_cons] at hmem
        obtain ⟨hspan, _⟩ := spanOf_head_group keep doc hwf off t ts hdoc
        have hMle : (ts.takeWhile keep).length ≤ ts.length := takeWhile_length_le keep ts
        rcases hmem with hhead | hrest
        · rw [hspan] at hhead
          have hs : s = off := congrArg Span.start hhead
          have he : e = off + 1 + (ts.takeWhile keep).length := congrArg Span.stop hhead
          subst hs
          refine ⟨by omega, by omega, ?_, ?_, ?_⟩
          · intro k hk1 hk2
            by_cases hks : k = s
            · rw [hks, hkeepAtOff]
              exact hk
            · have hj : k = s + 1 + (k - s - 1) := by omega
              rw [hj, ← hkeepts]
              apply keepAt_takeWhile_interior
              omega
          · rcases hcond with hc | hc
            · exact hc
            · rw [hkeepAtOff, hk] at hc
              exact Bool.noConfusion hc
          · rw [he, ← hkeepts]
            exact keepAt_takeWhile_boundary keep ts
        · rw [dropWhile_eq_drop_len, hts, List.drop_drop] at hrest
          have hMle2 : ((doc.drop (off + 1)).takeWhile keep).length ≤ doc.length - (off + 1) := by
            have h2 := takeWhile_length_le keep (doc.drop (off + 1))
            rw [List.length_drop] at h2
            exact h2
          apply ih (off + 1 + ((doc.drop (off + 1)).takeWhile keep).length) (by omega) ?_ s e hrest
          right
          have hb := keepAt_takeWhile_boundary keep (doc.drop (off + 1))
          rw [keepAt_drop] at hb
          exact hb

theorem runs_maximal_bwd_aux (keep : Token → Bool) (doc : List Token) (hwf : WFDoc doc) :
    ∀ (N off : Nat), doc.length - off ≤ N →
      ∀ s e, IsMaximalRun keep doc s e → off ≤ s →
        Span.mk s e ∈ (runsBy keep (doc.drop off)).map spanOf := by
  intro N
  induction N with
  | zero =>
    intro off hoff s e hrun hle
    obtain ⟨hse, helen, hint, hleft, hright⟩ := hrun
    exact (by omega : False).elim
  | succ N ih =>
    intro off hoff s e hrun hle
    obtain ⟨hse, helen, hint, hleft, hright⟩ := hrun
    cases hdoc : doc.drop off with
    | nil =>
      have hl := List.length_drop off doc
      rw [hdoc] at hl
      simp only [List.length_nil] at hl
      exact (by omega : False).elim
    | cons t ts =>
      have hts : ts = doc.drop (off + 1) := drop_cons_tail doc off t ts hdoc
      have hofft : doc[off]? = some t := drop_cons_head doc off t ts hdoc
      have hkeepAtOff : keepAt keep doc off = keep t := by
        unfold keepAt
        rw [hofft]
      have hofflt : off < doc.length := by
        have h1 := List.length_drop off doc
        rw [hdoc] at h1
        simp only [List.length_cons] at h1
        omega
      have htslen : ts.length = doc.length - (off + 1) := by
        rw [hts]
        exact List.length_drop (off + 1) doc
      have hkeepts : ∀ j, keepAt keep ts j = keepAt keep doc (off + 1 + j) := by
        intro j
        rw [hts, keepAt_drop]
      by_cases hos : off = s
      · have hkt : keep t = true := by
          have hoffk := hint off (by omega) (by omega)
          rw [hkeepAtOff] at hoffk
          exact hoffk
        have hm : (ts.takeWhile keep).length = e - (off + 1) := by
          apply takeWhile_length_eq
          · intro j hj
            rw [hkeepts j]
            apply hint
            · omega
            · omega
          · rw [hkeepts]
            have he2 : off + 1 + (e - (off + 1)) = e := by omega
            rw [he2]
            exact hright
        obtain ⟨hspan, _⟩ := spanOf_head_group keep doc hwf off t ts hdoc
        have heq : Span.mk s e = spanOf (t :: ts.takeWhile keep) := by
          rw [hspan, hm, hos]
          have h2 : s + 1 + (e - (s + 1)) = e := by omega
          rw [h2]
        simp only [runsBy, hkt, ite_true, if_pos, List.map_cons]
        rw [heq]
        exact List.mem_cons_self _ _
      · have hlt : off < s := by omega
        cases hkt : keep t with
        | false =>
          simp only [runsBy, hkt, Bool.false_eq_true, if_false, ite_false]
          rw [hts]
          exact ih (off + 1) (by omega) s e ⟨hse, helen, hint, hleft, hright⟩ (by omega)
        | true =>
          have hsM : off + 1 + (ts.takeWhile keep).length ≤ s := by
            by_contra hcon
            push_neg at hcon
            have hs1 : keepAt keep doc (s - 1) = true := by
              by_cases hs1off : s - 1 = off
              · rw [hs1off, hkeepAtOff]
                exact hkt
              · have hj2 : s - 1 = off + 1 + (s - off - 2) := by omega
                rw [hj2, ← hkeepts]
                apply keepAt_takeWhile_interior
                omega
            rcases hleft with h0 | hfalse
            · omega
            · rw [hs1] at hfalse
              exact Bool.noConfusion hfalse
          simp only [runsBy, hkt, ite_true, if_pos, List.map_cons]
          apply List.mem_cons_of_mem
          rw [dropWhile_eq_drop_len, hts, List.drop_drop]
          have hMle2 : ((doc.drop (off + 1)).takeWhile keep).length ≤ doc.length - (off + 1) := by
            have h2 := takeWhile_length_le keep (doc.drop (off + 1))
            rw [List.length_drop] at h2
            exact h2
          rw [hts] at hsM
          exact ih (off + 1 + ((doc.drop (off + 1)).takeWhile keep).length) (by omega) s e
            ⟨hse, helen, hint, hleft, hright⟩ (by omega)

theorem runs_starts_aux (keep : Token → Bool) (doc : List Token) (hwf : WFDoc doc) :
    ∀ (N off : Nat), doc.length - off ≤ N →
      (∀ sp ∈ (runsBy keep (doc.drop off)).map spanOf, off ≤ sp.start)
      ∧ List.Pairwise (fun a b => a.start < b.start) ((runsBy keep (doc.drop off)).map spanOf) := by
  intro N
  induction N with
  | zero =>
    intro off hoff
    have h0 : (doc.drop off).length = 0 := by
      have hl := List.length_drop off doc
      omega
    rw [List.length_eq_zero.mp h0]
    simp [runsBy]
  | succ N ih =>
    intro off hoff
    cases hdoc : doc.drop off with
    | nil =>
      simp [runsBy]
    | cons t ts =>
      have hts : ts = doc.drop (off + 1) := drop_cons_tail doc off t ts hdoc
      have hofflt : off < doc.length := by
        have h1 := List.length_drop off doc
        rw [hdoc] at h1
        simp only [List.length_cons] at h1
        omega
      cases hk : keep t with
      | false =>
        simp only [runsBy, hk, Bool.false_eq_true, if_false, ite_false]
        rw [hts]
        obtain ⟨hall, hpw⟩ := ih (off + 1) (by omega)
        exact ⟨fun sp hsp => le_trans (by omega) (hall sp hsp), hpw⟩
      | true =>
        simp only [runsBy, hk, ite_true, if_pos, List.map_cons]
        obtain ⟨hspan, _⟩ := spanOf_head_group keep doc hwf off t ts hdoc
        have hMle2 : ((doc.drop (off + 1)).takeWhile keep).length ≤ doc.length - (off + 1) := by
          have h2 := takeWhile_length_le keep (doc.drop (off + 1))
          rw [List.length_drop] at h2
          exact h2
        have hrec : (runsBy keep (ts.dropWhile keep)).map spanOf
            = (runsBy keep (doc.drop (off + 1 + ((doc.drop (off + 1)).takeWhile keep).length))).map spanOf := by
          rw [dropWhile_eq_drop_len, hts, List.drop_drop]
        obtain ⟨hall, hpw⟩ := ih (off + 1 + ((doc.drop (off + 1)).takeWhile keep).length) (by omega)
        constructor
        · intro sp hsp
          rcases List.mem_cons.mp hsp with rfl | hsp2
          · rw [hspan]
          · rw [hrec] at hsp2
            exact le_trans (by omega) (hall sp hsp2)
        · rw [List.pairwise_cons]
          constructor
          · intro sp hsp
            rw [hrec] at hsp
            have h1 := hall sp hsp
            rw [hspan]
            simp only []
            omega
          · rw [hrec]
            exact hpw

/-- C9: the contiguous-run phraser emits exactly the maximal runs of
consecutive tokens on which the stop-token indicator is false — one span
per run, in document order, only non-empty runs, no stop token inside —
and each emitted span slices back to exactly its run; on the example
document "red apples, are good in flavour" with the default indicator it
produces the phrases "red apples", "good", "flavour". -/
theorem contiguous_phraser_maximal_runs (stop : Token → Bool) (doc : List Token)
    (hwf : WFDoc doc) :
    ((ContiguousNonStopTokenPhraser stop doc).map (spanTokens doc)
        = runsBy (fun t => !stop t) doc)
    ∧ (∀ g ∈ runsBy (fun t => !stop t) doc, g ≠ [] ∧ ∀ t ∈ g, stop t = false)
    ∧ (∀ s e, Span.mk s e ∈ ContiguousNonStopTokenPhraser stop doc
        ↔ IsMaximalRun (fun t => !stop t) doc s e)
    ∧ List.Pairwise (fun a b => a.start < b.start) (ContiguousNonStopTokenPhraser stop doc)
    ∧ ContiguousNonStopTokenPhraser BasicStopTokenIndicator exDoc
        = [⟨0, 2⟩, ⟨4, 5⟩, ⟨6, 7⟩]
    ∧ (ContiguousNonStopTokenPhraser BasicStopTokenIndicator exDoc).map (spanText exDoc)
        = ["red apples", "good", "flavour"] := by
  have hdrop : doc.drop 0 = doc := by simp
  have hslice := runs_slice_aux (fun t => !stop t) doc hwf doc.length 0 (by omega)
  rw [hdrop] at hslice
  have hfwd := runs_maximal_fwd_aux (fun t => !stop t) doc hwf doc.length 0 (by omega)
    (Or.inl (Or.inl rfl))
  rw [hdrop] at hfwd
  have hbwd := runs_maximal_bwd_aux (fun t => !stop t) doc hwf doc.length 0 (by omega)
  rw [hdrop] at hbwd
  have hord := runs_starts_aux (fun t => !stop t) doc hwf doc.length 0 (by omega)
  rw [hdrop] at hord
  have hex : ContiguousNonStopTokenPhraser BasicStopTokenIndicator exDoc
      = [⟨0, 2⟩, ⟨4, 5⟩, ⟨6, 7⟩] := by
    norm_num [ContiguousNonStopTokenPhraser, runsBy, exDoc, mkTok, BasicStopTokenIndicator,
      spanOf, List.takeWhile, List.dropWhile]
  refine ⟨?_, ?_, ?_, ?_, hex, ?_⟩
  · unfold ContiguousNonStopTokenPhraser
    rw [List.map_map]
    conv_rhs => rw [← List.map_id (runsBy (fun t => !stop t) doc)]
    apply List.map_congr_left
    intro g hg
    exact (hslice g hg).1
  · intro g hg
    obtain ⟨_, hne, hkeep⟩ := hslice g hg
    refine ⟨hne, fun t ht => ?_⟩
    have hk := hkeep t ht
    cases hst : stop t
    · rfl
    · simp [hst] at hk
  · intro s e
    constructor
    · intro hmem
      apply hfwd s e
      unfold ContiguousNonStopTokenPhraser at hmem
      exact hmem
    · intro hrun
      have hm := hbwd s e hrun (Nat.zero_le s)
      unfold ContiguousNonStopTokenPhraser
      exact hm
  · unfold ContiguousNonStopTokenPhraser
    exact hord.2
  · rw [hex]
    decide

/-- Witness for C9 at the example document (its well-formedness is
decided concretely). -/
theorem contiguous_phraser_maximal_runs_witness :
    WFDoc exDoc
      ∧ (ContiguousNonStopTokenPhraser BasicStopTokenIndicator exDoc).map (spanText exDoc)
        = ["red apples", "good", "flavour"] :=
  ⟨by decide, (contiguous_phraser_maximal_runs BasicStopTokenIndicator exDoc (by decide)).2.2.2.2.2⟩
